import Mathlib

/-!
Verification of the audio intent-detection preprocessing pipeline.

Waveforms are modelled as lists of rationals (`List ℚ`), an MFCC
coefficient matrix as a list of rows (`List (List ℚ)`, every row one
coefficient's time series, so the numpy `shape` is
`(rows.length, row.length)`).  External library calls (librosa's
`mfcc`, `load` and `trim`, the keras model) are parameters of the
embedded functions; everything the repository's own code does to their
results is translated literally.
-/

namespace AudioIntent

/-- Number of frames the code pads/truncates every MFCC matrix to:
`ceil(max_audio_len * srr / 512)`, from `max_pad_len = (max_audio_len * srr) / 512`. -/
def target_frames (srr : ℕ) (max_audio_len : ℚ) : ℕ :=
  (⌈max_audio_len * (srr : ℚ) / 512⌉).toNat

/-- Loop body of `convert_to_mfcc` for a single example: computes the MFCC
matrix of the signal (via the external `mfccFn`, standing for
`librosa.feature.mfcc`), then pads with zero columns when
`mfcc.shape[1] <= max_pad_len`, by `pad_width = ceil(max_pad_len - mfcc.shape[1])`,
and otherwise truncates to the first `ceil(max_pad_len)` columns. -/
def convert_to_mfcc_one (mfccFn : List ℚ → List (List ℚ)) (srr : ℕ)
    (max_audio_len : ℚ) (sig : List ℚ) : List (List ℚ) :=
  let mfcc := mfccFn sig
  let max_pad_len : ℚ := max_audio_len * (srr : ℚ) / 512
  let shape1 : ℕ := (mfcc.headD []).length
  if (shape1 : ℚ) ≤ max_pad_len then
    let pad_width : ℤ := ⌈max_pad_len - (shape1 : ℚ)⌉
    mfcc.map (fun r => r ++ List.replicate pad_width.toNat 0)
  else
    mfcc.map (fun r => r.take (⌈max_pad_len⌉).toNat)

/-- `convert_to_mfcc`: replaces every example's signal by its padded/truncated
MFCC matrix (the `for index, row in x.iterrows()` loop). -/
def convert_to_mfcc (mfccFn : List ℚ → List (List ℚ)) (srr : ℕ)
    (max_audio_len : ℚ) (x : List (List ℚ)) : List (List (List ℚ)) :=
  x.map (convert_to_mfcc_one mfccFn srr max_audio_len)

/-- Error value modelling a pandas `KeyError` raised by `DataFrame.drop`
when a label to drop is absent from the index. -/
def eKeyError : String := "KeyError"

/-- Error value modelling the `UnboundLocalError` raised by `read_data` when
the CSV has no rows: `srr` is assigned only inside the row loop, so
`return x, y, srr` reads an unassigned local. -/
def eUnboundSrr : String := "UnboundLocalError"

/-- `librosa.get_duration(wave, sr)`: number of samples divided by the
sample rate. -/
def get_duration (w : List ℚ) (sr : ℚ) : ℚ :=
  (w.length : ℚ) / sr

/-- `DataFrame.drop(labels, axis=0)` on a frame with the default
`RangeIndex 0..len-1`: removes the rows whose position is listed, raising
`KeyError` when a listed label is not in the index. -/
def drop_rows {α : Type} (x : List α) (idxs : List ℕ) : Except String (List α) :=
  if idxs.all (fun i => decide (i < x.length)) then
    Except.ok (((x.enum).filter (fun p => !(idxs.contains p.1))).map Prod.snd)
  else
    Except.error eKeyError

/-- `remove_outliers(x, y, max_length)`.  Translated literally from the
source: the duration list `t` is computed from the OUTER-SCOPE variables
`X_trimed` and `srr` (here explicit parameters `gX_trimed`, `gsrr`, since a
Lean function has no access to globals), not from the parameter `x`; then the
indices with `t > max_length` are dropped from both `x` and `y`. -/
def remove_outliers (gX_trimed : List (List ℚ)) (gsrr : ℚ)
    (x : List (List ℚ)) (y : List String) (max_length : ℚ) :
    Except String (List (List ℚ) × List String) :=
  let t := gX_trimed.map (fun row => get_duration row gsrr)
  let ouliers_index := ((t.enum).filter (fun p => decide (max_length < p.2))).map Prod.fst
  match drop_rows x ouliers_index, drop_rows y ouliers_index with
  | Except.ok xr, Except.ok yr => Except.ok (xr, yr)
  | Except.error e, _ => Except.error e
  | _, Except.error e => Except.error e

/-- A sample label string. -/
def labelA : String := "increasevolume"

/-- Value-level content of `trim_audios`: each signal is replaced by its
trimmed version (`trimFn` stands for the external
`librosa.effects.trim(row["Signal"], top_db, hop_length)`). -/
def trim_audios (trimFn : List ℚ → List ℚ) (x : List (List ℚ)) : List (List ℚ) :=
  x.map trimFn

/-- Store semantics of `trim_audios`.  A pandas DataFrame is a heap object
passed by reference, and the loop body `x.at[index, "Signal"] = wave` writes
into the object the caller's variable also references; `return x` returns
that same object.  The store maps references (positions) to DataFrame values;
the call returns the updated store and the returned reference. -/
def trim_audios_state (trimFn : List ℚ → List ℚ)
    (store : List (List (List ℚ))) (x_ref : ℕ) :
    List (List (List ℚ)) × ℕ :=
  (store.set x_ref (trim_audios trimFn (store.getD x_ref [])), x_ref)

/-- `read_data`: loads every path's audio (via the external `loader`, standing
for `librosa.load(row["path"], mono=True, sr=None)`), stores the waveforms in
the Signal column, and returns the loop variable `srr`, i.e. the sample rate
of the LAST row's file; with no rows the function raises because `srr` was
never assigned. -/
def read_data (loader : String → List ℚ × ℕ) (paths : List String) :
    Except String (List (List ℚ) × ℕ) :=
  match paths.getLast? with
  | none => Except.error eUnboundSrr
  | some last => Except.ok (paths.map (fun p => (loader p).1), (loader last).2)

/-- The script constant `max_lenght = 2.5`. -/
def max_lenght : ℚ := 5 / 2

/-- Tail of the top-level training script after `read_data`: trim, remove
outliers (the globals `X_trimed` and `srr` coincide with the arguments in
this call site), then MFCC conversion, all with the single `srr` value. -/
def pipeline_body (trimFn : List ℚ → List ℚ) (mfccFn : List ℚ → List (List ℚ))
    (X : List (List ℚ)) (y : List String) (srr : ℕ) :
    Except String (List (List (List ℚ)) × List String) :=
  let X_trimed := trim_audios trimFn X
  match remove_outliers X_trimed (srr : ℚ) X_trimed y max_lenght with
  | Except.error e => Except.error e
  | Except.ok (X_no, y_no) =>
      Except.ok (convert_to_mfcc mfccFn srr max_lenght X_no, y_no)

/-- The top-level training script (the cell computing `X`, `Y`, `srr`,
`X_trimed`, `X_no_outliers`, `X_mfcc`). -/
def main_script (loader : String → List ℚ × ℕ) (trimFn : List ℚ → List ℚ)
    (mfccFn : List ℚ → List (List ℚ)) (paths : List String) (y : List String) :
    Except String (List (List (List ℚ)) × List String) :=
  match read_data loader paths with
  | Except.error e => Except.error e
  | Except.ok (X, srr) => pipeline_body trimFn mfccFn X y srr

/-- Sample audio file paths. -/
def pathA : String := "audio1.wav"

/-- Another sample audio file path. -/
def pathB : String := "audio2.wav"

/-- A loader reporting rate 8000 for every file except the last one (44100). -/
def ld1 : String → List ℚ × ℕ :=
  fun p => ([], if p = pathB then 44100 else 8000)

/-- A loader agreeing with `ld1` on waveforms and on the last file's rate but
reporting a different rate for the first file. -/
def ld2 : String → List ℚ × ℕ :=
  fun p => ([], if p = pathB then 44100 else 123)

/-- The sklearn `LabelEncoder.fit` step of `convert_y_to_oneHot`: the encoder
classes are the distinct training labels in sorted order. -/
def le_fit (y : List String) : List String :=
  List.insertionSort (fun a b => a ≤ b) y.dedup

/-- The sklearn `LabelEncoder.transform` of one label: its position in the
sorted class list. -/
def le_code : List String → String → ℕ
  | [], _ => 0
  | c :: cs, l => if c = l then 0 else le_code cs l + 1

/-- `LabelEncoder.transform` over a label column. -/
def le_transform (classes : List String) (y : List String) : List ℕ :=
  y.map (le_code classes)

/-- `keras.utils.to_categorical`: one row per code, each row a one-hot vector
of width `num_classes`. -/
def to_categorical (codes : List ℕ) (num_classes : ℕ) : List (List ℕ) :=
  codes.map (fun c => (List.range num_classes).map (fun i => if i = c then 1 else 0))

/-- Python `max` over a sequence of codes (0 on the empty list, where Python
would raise instead; every use below is on a non-empty list). -/
def npmax (l : List ℕ) : ℕ :=
  l.foldr max 0

/-- `convert_y_to_oneHot(y)`: fits the label encoder on `y`, encodes `y`, and
builds one-hot vectors with `num_classes = max(temp) + 1`; returns the one-hot
matrix together with the encoder. -/
def convert_y_to_oneHot (y : List String) : List (List ℕ) × List String :=
  (to_categorical (le_transform (le_fit y) y) (npmax (le_transform (le_fit y) y) + 1),
   le_fit y)

/-- Default string for out-of-range indexing (never reached in the theorems
below, whose indices are proved in range). -/
def sDefault : String := ""

/-- `LabelEncoder.inverse_transform` of one code: the class stored at that
position. -/
def inverse_transform (classes : List String) (c : ℕ) : String :=
  classes.getD c sDefault

/-- Scanning helper for `numpy.argmax`: current index, best index, best value. -/
def argmaxAux {α : Type} [LinearOrder α] : List α → ℕ → ℕ → α → ℕ
  | [], _, bi, _ => bi
  | a :: t, i, bi, bv =>
      if bv < a then argmaxAux t (i + 1) i a else argmaxAux t (i + 1) bi bv

/-- `numpy.argmax` on a one-dimensional array: index of the first occurrence
of the maximum (0 on the empty array). -/
def argmax {α : Type} [LinearOrder α] : List α → ℕ
  | [] => 0
  | a :: t => argmaxAux t 1 0 a

/-- A second sample label string. -/
def labelB : String := "decreasevolume"

/-- `test_output_csv(...)`: loads the persisted model (`model` stands for the
loaded network's `predict`), reads the evaluation CSV (no label columns),
trims, extracts MFCCs with the training `max_audio_length`, selects the
Signal column, predicts, takes the per-row arg-max, decodes it through the
persisted encoder `le`, and builds the output table with `Id = df.index`
(the 0-based row position) next to the `Predicted` label column. -/
def test_output_csv (model : List (List (List ℚ)) → List (List ℚ))
    (loader : String → List ℚ × ℕ) (trimFn : List ℚ → List ℚ)
    (mfccFn : List ℚ → List (List ℚ)) (le : List String)
    (eval_paths : List String) (max_audio_length : ℚ) :
    Except String (List (ℕ × String)) :=
  match read_data loader eval_paths with
  | Except.error e => Except.error e
  | Except.ok (x_test, srr_test) =>
      let X_test_trimed := trim_audios trimFn x_test
      let X_mfcc_test := convert_to_mfcc mfccFn srr_test max_audio_length X_test_trimed
      let predicted_y := model X_mfcc_test
      let pred_codes := predicted_y.map argmax
      let predicted_y_string := pred_codes.map (inverse_transform le)
      Except.ok ((List.range predicted_y_string.length).zip predicted_y_string)

/-- A constant stand-in for the loaded model: one uniform probability row of
width two per input example. -/
def model2 : List (List (List ℚ)) → List (List ℚ) :=
  fun xs => xs.map (fun _ => [1 / 2, 1 / 2])

theorem cast_le_ceil_of_le {q : ℚ} {n : ℕ} (h : (n : ℚ) ≤ q) :
    (n : ℤ) ≤ ⌈q⌉ := by
  have h2 : (n : ℚ) ≤ (⌈q⌉ : ℚ) := le_trans h (Int.le_ceil q)
  exact_mod_cast h2

theorem ceil_le_cast_of_le {q : ℚ} {n : ℕ} (h : q ≤ (n : ℚ)) :
    ⌈q⌉ ≤ (n : ℤ) := by
  exact Int.ceil_le.mpr (by exact_mod_cast h)

/-- C1: every matrix coming out of `convert_to_mfcc` has shape
`(n_coeff, target_frames)` with `target_frames = ceil(max_audio_len * srr / 512)`,
independently of the signal's original duration. -/
theorem convert_to_mfcc_fixed_shape (mfccFn : List ℚ → List (List ℚ))
    (srr : ℕ) (max_audio_len : ℚ) (sig : List ℚ) (nc nf : ℕ)
    (hlen : (mfccFn sig).length = nc)
    (hrows : ∀ r ∈ mfccFn sig, r.length = nf) :
    (convert_to_mfcc_one mfccFn srr max_audio_len sig).length = nc ∧
    ∀ r ∈ convert_to_mfcc_one mfccFn srr max_audio_len sig,
      r.length = target_frames srr max_audio_len := by
  simp only [convert_to_mfcc_one]
  cases hm : mfccFn sig with
  | nil =>
      rw [hm] at hlen
      constructor
      · split <;> simpa using hlen
      · intro r hr
        split at hr <;> simp at hr
  | cons r0 rest =>
      rw [hm] at hlen hrows
      have h0 : r0.length = nf := hrows r0 (List.mem_cons_self r0 rest)
      simp only [List.headD_cons, h0]
      set mpl : ℚ := max_audio_len * (srr : ℚ) / 512 with hmpl
      by_cases hif : (nf : ℚ) ≤ mpl
      · rw [if_pos hif]
        have hle : (nf : ℤ) ≤ ⌈mpl⌉ := cast_le_ceil_of_le hif
        constructor
        · simpa using hlen
        · intro r hr
          rcases List.mem_map.mp hr with ⟨a, ha, rfl⟩
          have hal : a.length = nf := hrows a ha
          simp only [List.length_append, List.length_replicate, hal]
          rw [Int.ceil_sub_nat]
          unfold target_frames
          rw [← hmpl]
          omega
      · rw [if_neg hif]
        have hlt : mpl < (nf : ℚ) := lt_of_not_le hif
        have hle : ⌈mpl⌉ ≤ (nf : ℤ) := ceil_le_cast_of_le (le_of_lt hlt)
        constructor
        · simpa using hlen
        · intro r hr
          rcases List.mem_map.mp hr with ⟨a, ha, rfl⟩
          have hal : a.length = nf := hrows a ha
          simp only [List.length_take, hal]
          unfold target_frames
          rw [← hmpl]
          omega

/-- Witness for C1 at a concrete input: a 2×2 matrix, `srr = 1024`,
`max_audio_len = 3`, so `target_frames = 6`. -/
theorem convert_to_mfcc_fixed_shape_witness :
    (∀ r ∈ [[(1 : ℚ), 2], [3, 4]], r.length = 2) ∧
    ((convert_to_mfcc_one (fun _ => [[(1 : ℚ), 2], [3, 4]]) 1024 3 []).length = 2 ∧
     ∀ r ∈ convert_to_mfcc_one (fun _ => [[(1 : ℚ), 2], [3, 4]]) 1024 3 [],
       r.length = target_frames 1024 3) :=
  ⟨by decide,
   convert_to_mfcc_fixed_shape (fun _ => [[(1 : ℚ), 2], [3, 4]]) 1024 3 [] 2 2
     rfl (by decide)⟩

/-- C2: whenever the MFCC matrix has at most `target_frames` columns the code
right-pads every row with zeros up to exactly `target_frames` columns; a matrix
with exactly `max_audio_len * srr / 512` columns gets a pad of width 0 (the
matrix is returned unchanged); only a matrix with more than `target_frames`
columns is truncated to its first `target_frames` columns. -/
theorem convert_to_mfcc_pad_or_truncate (mfccFn : List ℚ → List (List ℚ))
    (srr : ℕ) (max_audio_len : ℚ) (sig : List ℚ) (nf : ℕ)
    (hrows : ∀ r ∈ mfccFn sig, r.length = nf) :
    (nf ≤ target_frames srr max_audio_len →
      convert_to_mfcc_one mfccFn srr max_audio_len sig =
        (mfccFn sig).map
          (fun r => r ++ List.replicate (target_frames srr max_audio_len - nf) 0)) ∧
    ((nf : ℚ) = max_audio_len * (srr : ℚ) / 512 →
      convert_to_mfcc_one mfccFn srr max_audio_len sig = mfccFn sig) ∧
    (target_frames srr max_audio_len < nf →
      convert_to_mfcc_one mfccFn srr max_audio_len sig =
        (mfccFn sig).map (fun r => r.take (target_frames srr max_audio_len))) := by
  simp only [convert_to_mfcc_one]
  cases hm : mfccFn sig with
  | nil => simp
  | cons r0 rest =>
      rw [hm] at hrows
      have h0 : r0.length = nf := hrows r0 (List.mem_cons_self r0 rest)
      simp only [List.headD_cons, h0]
      set mpl : ℚ := max_audio_len * (srr : ℚ) / 512 with hmpl
      have htf : target_frames srr max_audio_len = (⌈mpl⌉).toNat := by
        unfold target_frames
        rw [← hmpl]
      refine ⟨?_, ?_, ?_⟩
      · intro hle
        by_cases hif : (nf : ℚ) ≤ mpl
        · rw [if_pos hif]
          have hc : (nf : ℤ) ≤ ⌈mpl⌉ := cast_le_ceil_of_le hif
          rw [Int.ceil_sub_nat]
          have hw : (⌈mpl⌉ - (nf : ℤ)).toNat = target_frames srr max_audio_len - nf := by
            rw [htf]; omega
          rw [hw]
        · rw [if_neg hif]
          have hlt : mpl < (nf : ℚ) := lt_of_not_le hif
          have hc : ⌈mpl⌉ ≤ (nf : ℤ) := ceil_le_cast_of_le (le_of_lt hlt)
          have hnn : nf = (⌈mpl⌉).toNat := by
            rw [htf] at hle; omega
          apply List.map_congr_left
          intro a ha
          have hal : a.length = nf := hrows a ha
          rw [List.take_of_length_le (le_of_eq (by rw [hal, hnn]))]
          have hz : target_frames srr max_audio_len - nf = 0 := by
            rw [htf]; omega
          rw [hz, List.replicate_zero, List.append_nil]
      · intro heq
        rw [if_pos (le_of_eq heq)]
        rw [← heq, sub_self, Int.ceil_zero]
        simp
      · intro hlt2
        have hif : ¬ ((nf : ℚ) ≤ mpl) := by
          intro hif
          have hc : (nf : ℤ) ≤ ⌈mpl⌉ := cast_le_ceil_of_le hif
          rw [htf] at hlt2
          omega
        rw [if_neg hif, htf]

/-- Witness for C2 at a concrete input: a 1×3 matrix, `srr = 512`,
`max_audio_len = 5`, so `max_pad_len = 5` and `target_frames = 5`. -/
theorem convert_to_mfcc_pad_or_truncate_witness :
    (∀ r ∈ [[(1 : ℚ), 2, 3]], r.length = 3) ∧
    (3 ≤ target_frames 512 5 →
      convert_to_mfcc_one (fun _ => [[(1 : ℚ), 2, 3]]) 512 5 [] =
        [[(1 : ℚ), 2, 3]].map
          (fun r => r ++ List.replicate (target_frames 512 5 - 3) 0)) ∧
    ((3 : ℚ) = 5 * (512 : ℚ) / 512 →
      convert_to_mfcc_one (fun _ => [[(1 : ℚ), 2, 3]]) 512 5 [] = [[(1 : ℚ), 2, 3]]) ∧
    (target_frames 512 5 < 3 →
      convert_to_mfcc_one (fun _ => [[(1 : ℚ), 2, 3]]) 512 5 [] =
        [[(1 : ℚ), 2, 3]].map (fun r => r.take (target_frames 512 5))) :=
  ⟨by decide,
   convert_to_mfcc_pad_or_truncate (fun _ => [[(1 : ℚ), 2, 3]]) 512 5 [] 3 (by decide)⟩

/-- C3 (bug evaluation): because `remove_outliers` measures durations on the
outer-scope `X_trimed`/`srr` instead of its argument `x`, a call whose `x`
holds a 4-second recording (4 samples at rate 1) while the global `X_trimed`
holds a 1-second one retains the 4-second example even though
`max_length = 3`: the returned collection still contains it, and its duration
exceeds the threshold. -/
theorem remove_outliers_keeps_long_example :
    remove_outliers [[0]] 1 [[0, 0, 0, 0]] [labelA] 3 =
      Except.ok ([[0, 0, 0, 0]], [labelA]) ∧
    (3 : ℚ) < get_duration [0, 0, 0, 0] 1 := by
  constructor
  · norm_num [remove_outliers, drop_rows, get_duration, List.enum, List.enumFrom,
      List.filter, List.contains, List.all]
  · norm_num [get_duration]

/-- C4 (bug evaluation): two calls to `remove_outliers` with identical
declared arguments `x = [[0]]`, `y = [labelA]`, `max_length = 3` return
different results when only the outer-scope `X_trimed` differs, so the
function does not operate purely on its parameter list. -/
theorem remove_outliers_reads_globals :
    remove_outliers [[0, 0, 0, 0]] 1 [[0]] [labelA] 3 = Except.ok ([], []) ∧
    remove_outliers [[0]] 1 [[0]] [labelA] 3 = Except.ok ([[0]], [labelA]) ∧
    (([] : List (List ℚ)), ([] : List String)) ≠ ([[(0 : ℚ)]], [labelA]) := by
  refine ⟨?_, ?_, by decide⟩ <;>
    norm_num [remove_outliers, drop_rows, get_duration, List.enum, List.enumFrom,
      List.filter, List.contains, List.all]

/-- C8 (bug evaluation): running `trim_audios` on a collection holding the
single recording `[1, 0]`, with a trimmer that strips the trailing silent
sample, returns the very object that was passed in (same reference) and
leaves the caller's collection holding the trimmed samples `[1]`, not the
original `[1, 0]`: the input collection is mutated in place. -/
theorem trim_audios_mutates_input :
    (trim_audios_state (fun w => w.take 1) [[[(1 : ℚ), 0]]] 0).2 = 0 ∧
    (trim_audios_state (fun w => w.take 1) [[[(1 : ℚ), 0]]] 0).1 = [[[(1 : ℚ)]]] ∧
    [[(1 : ℚ), 0]] ≠ [[(1 : ℚ)]] :=
  ⟨rfl, rfl, by decide⟩

/-- C10: on a non-empty CSV `read_data` returns the sample rate reported for
the last row's file; the rates of earlier files are discarded without any
consistency check (any loader agreeing on the waveforms and on the last file's
rate gives the same result); and the training script threads exactly this one
value into duration filtering and MFCC extraction for every recording. -/
theorem read_data_last_sample_rate (loader loader2 : String → List ℚ × ℕ)
    (trimFn : List ℚ → List ℚ) (mfccFn : List ℚ → List (List ℚ))
    (paths : List String) (y : List String) (h : paths ≠ []) :
    read_data loader paths =
      Except.ok (paths.map (fun p => (loader p).1), (loader (paths.getLast h)).2) ∧
    main_script loader trimFn mfccFn paths y =
      pipeline_body trimFn mfccFn (paths.map (fun p => (loader p).1)) y
        ((loader (paths.getLast h)).2) ∧
    ((∀ p, (loader2 p).1 = (loader p).1) →
      (loader2 (paths.getLast h)).2 = (loader (paths.getLast h)).2 →
      read_data loader2 paths = read_data loader paths) := by
  have hr : read_data loader paths =
      Except.ok (paths.map (fun p => (loader p).1), (loader (paths.getLast h)).2) := by
    unfold read_data
    rw [List.getLast?_eq_getLast paths h]
  refine ⟨hr, ?_, ?_⟩
  · unfold main_script
    rw [hr]
  · intro hw hlast
    have hr2 : read_data loader2 paths =
        Except.ok (paths.map (fun p => (loader2 p).1), (loader2 (paths.getLast h)).2) := by
      unfold read_data
      rw [List.getLast?_eq_getLast paths h]
    rw [hr, hr2, hlast]
    have hmap : paths.map (fun p => (loader2 p).1) = paths.map (fun p => (loader p).1) :=
      List.map_congr_left (fun p _ => hw p)
    rw [hmap]

/-- Witness for C10 at a concrete input: two paths, loaders differing on the
first file's sample rate only. -/
theorem read_data_last_sample_rate_witness :
    ((pathA :: [pathB]) ≠ ([] : List String)) ∧
    (read_data ld1 (pathA :: [pathB]) =
      Except.ok ((pathA :: [pathB]).map (fun p => (ld1 p).1),
        (ld1 ((pathA :: [pathB]).getLast (List.cons_ne_nil pathA [pathB]))).2) ∧
    main_script ld1 id (fun _ => []) (pathA :: [pathB]) [] =
      pipeline_body id (fun _ => []) ((pathA :: [pathB]).map (fun p => (ld1 p).1)) []
        ((ld1 ((pathA :: [pathB]).getLast (List.cons_ne_nil pathA [pathB]))).2) ∧
    ((∀ p, (ld2 p).1 = (ld1 p).1) →
      (ld2 ((pathA :: [pathB]).getLast (List.cons_ne_nil pathA [pathB]))).2 =
        (ld1 ((pathA :: [pathB]).getLast (List.cons_ne_nil pathA [pathB]))).2 →
      read_data ld2 (pathA :: [pathB]) = read_data ld1 (pathA :: [pathB]))) :=
  ⟨List.cons_ne_nil pathA [pathB],
   read_data_last_sample_rate ld1 ld2 id (fun _ => []) (pathA :: [pathB]) []
     (List.cons_ne_nil pathA [pathB])⟩

theorem argmaxAux_all_le {α : Type} [LinearOrder α] (l : List α) (i bi : ℕ) (bv : α)
    (h : ∀ a ∈ l, a ≤ bv) : argmaxAux l i bi bv = bi := by
  induction l generalizing i with
  | nil => rfl
  | cons a t ih =>
      have ha : ¬ bv < a := not_lt.mpr (h a (List.mem_cons_self a t))
      simp only [argmaxAux, if_neg ha]
      exact ih (i + 1) (fun x hx => h x (List.mem_cons_of_mem a hx))

theorem argmaxAux_zero_block (k : ℕ) :
    ∀ m i bi : ℕ,
      argmaxAux (List.replicate k (0 : ℕ) ++ 1 :: List.replicate m 0) i bi 0 = i + k := by
  induction k with
  | zero =>
      intro m i bi
      simp only [List.replicate, List.nil_append, argmaxAux, if_pos Nat.zero_lt_one]
      rw [argmaxAux_all_le]
      · omega
      · intro a ha
        rw [List.eq_of_mem_replicate ha]
        omega
  | succ k ih =>
      intro m i bi
      simp only [List.replicate_succ, List.cons_append, List.append_eq, argmaxAux,
        if_neg (lt_irrefl 0)]
      rw [ih m (i + 1) bi]
      omega

theorem onehot_row_eq (c : ℕ) :
    ∀ m : ℕ,
      (List.range (c + 1 + m)).map (fun i => if i = c then (1 : ℕ) else 0) =
        List.replicate c 0 ++ 1 :: List.replicate m 0 := by
  induction c with
  | zero =>
      intro m
      rw [show 0 + 1 + m = m + 1 by omega, List.range_succ_eq_map]
      simp only [List.map_cons, List.map_map, List.replicate, List.nil_append]
      congr 1
      · rw [List.map_congr_left (g := fun _ => (0 : ℕ))
          (fun i _ => by simp [Function.comp])]
        rw [List.map_const', List.length_range]
  | succ c ih =>
      intro m
      rw [show c + 1 + 1 + m = (c + 1 + m) + 1 by omega, List.range_succ_eq_map]
      simp only [List.map_cons, List.map_map, List.replicate_succ, List.cons_append]
      congr 1
      rw [List.map_congr_left (g := fun i => if i = c then (1 : ℕ) else 0)
        (fun i _ => by simp [Function.comp])]
      exact ih m

theorem argmax_onehot (C c : ℕ) (hc : c < C) :
    argmax ((List.range C).map (fun i => if i = c then (1 : ℕ) else 0)) = c := by
  obtain ⟨m, rfl⟩ : ∃ m, C = c + 1 + m := ⟨C - c - 1, by omega⟩
  rw [onehot_row_eq c m]
  cases c with
  | zero =>
      simp only [List.replicate, List.nil_append, argmax]
      apply argmaxAux_all_le
      intro a ha
      rw [List.eq_of_mem_replicate ha]
      omega
  | succ c =>
      simp only [List.replicate_succ, List.cons_append, argmax]
      rw [argmaxAux_zero_block c m 1 0]
      omega

theorem le_fit_nodup (y : List String) : (le_fit y).Nodup :=
  ((List.perm_insertionSort _ y.dedup).nodup_iff).mpr (List.nodup_dedup y)

theorem mem_le_fit {y : List String} {l : String} : l ∈ le_fit y ↔ l ∈ y :=
  ((List.perm_insertionSort _ y.dedup).mem_iff).trans List.mem_dedup

theorem le_fit_length (y : List String) : (le_fit y).length = y.dedup.length :=
  (List.perm_insertionSort _ y.dedup).length_eq

theorem le_code_lt {classes : List String} {l : String} (h : l ∈ classes) :
    le_code classes l < classes.length := by
  induction classes with
  | nil => cases h
  | cons c cs ih =>
      by_cases hc : c = l
      · simp [le_code, hc]
      · rcases List.mem_cons.mp h with h1 | h2
        · exact absurd h1.symm hc
        · simp only [le_code, if_neg hc, List.length_cons]
          exact Nat.succ_lt_succ (ih h2)

theorem le_code_getD {classes : List String} {l : String} (d : String)
    (h : l ∈ classes) : classes.getD (le_code classes l) d = l := by
  induction classes with
  | nil => cases h
  | cons c cs ih =>
      by_cases hc : c = l
      · simp [le_code, hc]
      · rcases List.mem_cons.mp h with h1 | h2
        · exact absurd h1.symm hc
        · simp only [le_code, if_neg hc, List.getD_cons_succ]
          exact ih h2

theorem getD_mem {α : Type} {l : List α} {i : ℕ} (d : α) (h : i < l.length) :
    l.getD i d ∈ l := by
  rw [List.getD_eq_getElem l d h]
  exact List.getElem_mem h

theorem getD_map_of_lt {α β : Type} (f : α → β) (l : List α) (i : ℕ) (d : β)
    (d2 : α) (h : i < l.length) : (l.map f).getD i d = f (l.getD i d2) := by
  rw [List.getD_eq_getElem (l.map f) d (by simpa using h), List.getElem_map,
    List.getD_eq_getElem l d2 h]

theorem le_code_of_getD {classes : List String} (d : String) (hnd : classes.Nodup) :
    ∀ i, i < classes.length → le_code classes (classes.getD i d) = i := by
  induction classes with
  | nil =>
      intro i hi
      simp at hi
  | cons c cs ih =>
      intro i hi
      cases i with
      | zero => simp [le_code]
      | succ i =>
          have hcs : cs.Nodup := (List.nodup_cons.mp hnd).2
          have hcn : c ∉ cs := (List.nodup_cons.mp hnd).1
          have hlen : i < cs.length := by simpa using hi
          have hm : cs.getD i d ∈ cs := getD_mem d hlen
          have hne : c ≠ cs.getD i d := fun he => hcn (he ▸ hm)
          simp only [List.getD_cons_succ, le_code, if_neg hne]
          rw [ih hcs i hlen]

theorem npmax_le {l : List ℕ} {m : ℕ} (h : ∀ a ∈ l, a ≤ m) : npmax l ≤ m := by
  induction l with
  | nil => simp [npmax]
  | cons a t ih =>
      simp only [npmax, List.foldr_cons]
      exact max_le (h a (List.mem_cons_self a t))
        (ih (fun x hx => h x (List.mem_cons_of_mem a hx)))

theorem le_npmax {l : List ℕ} {a : ℕ} (h : a ∈ l) : a ≤ npmax l := by
  induction l with
  | nil => cases h
  | cons b t ih =>
      simp only [npmax, List.foldr_cons]
      rcases List.mem_cons.mp h with rfl | h2
      · exact le_max_left _ _
      · exact le_trans (ih h2) (le_max_right _ _)

theorem num_classes_eq (y : List String) (hy : y ≠ []) :
    npmax (le_transform (le_fit y) y) + 1 = (le_fit y).length := by
  have hub : npmax (le_transform (le_fit y) y) ≤ (le_fit y).length - 1 := by
    apply npmax_le
    intro a ha
    rcases List.mem_map.mp ha with ⟨l, hl, rfl⟩
    have := le_code_lt (mem_le_fit.mpr hl)
    omega
  have hCpos : 0 < (le_fit y).length := by
    obtain ⟨l, hl⟩ : ∃ l, l ∈ y := by
      cases y with
      | nil => exact absurd rfl hy
      | cons a t => exact ⟨a, List.mem_cons_self a t⟩
    have := le_code_lt (mem_le_fit.mpr hl)
    omega
  have hlb : (le_fit y).length - 1 ≤ npmax (le_transform (le_fit y) y) := by
    apply le_npmax
    have hm : (le_fit y).getD ((le_fit y).length - 1) sDefault ∈ le_fit y :=
      getD_mem sDefault (by omega)
    have hmy : (le_fit y).getD ((le_fit y).length - 1) sDefault ∈ y := mem_le_fit.mp hm
    have hcode : le_code (le_fit y) ((le_fit y).getD ((le_fit y).length - 1) sDefault) =
        (le_fit y).length - 1 :=
      le_code_of_getD sDefault (le_fit_nodup y) _ (by omega)
    rw [← hcode]
    exact List.mem_map.mpr ⟨_, hmy, rfl⟩
  omega

/-- C5: encoding any training label through `convert_y_to_oneHot` and decoding
the arg-max position of its one-hot row through the returned encoder yields
the original label (round-trip law, stated for the row at every position `i`
of the training column). -/
theorem oneHot_roundtrip (y : List String) (i : ℕ) (hi : i < y.length) :
    inverse_transform (convert_y_to_oneHot y).2
      (argmax ((convert_y_to_oneHot y).1.getD i [])) = y.getD i sDefault := by
  simp only [convert_y_to_oneHot]
  have hlen : (le_transform (le_fit y) y).length = y.length := by
    simp [le_transform]
  have hlen2 : i < (le_transform (le_fit y) y).length := by
    rw [hlen]
    exact hi
  have hrow : (to_categorical (le_transform (le_fit y) y)
      (npmax (le_transform (le_fit y) y) + 1)).getD i [] =
      (List.range (npmax (le_transform (le_fit y) y) + 1)).map
        (fun j => if j = le_code (le_fit y) (y.getD i sDefault) then 1 else 0) := by
    unfold to_categorical
    rw [getD_map_of_lt _ _ i [] 0 hlen2]
    have h4 : (le_transform (le_fit y) y).getD i 0 =
        le_code (le_fit y) (y.getD i sDefault) := by
      unfold le_transform
      rw [getD_map_of_lt _ _ i 0 sDefault hi]
    rw [h4]
  rw [hrow]
  have hmem : y.getD i sDefault ∈ y := getD_mem sDefault hi
  have hcode_lt : le_code (le_fit y) (y.getD i sDefault) <
      npmax (le_transform (le_fit y) y) + 1 := by
    have : le_code (le_fit y) (y.getD i sDefault) ≤ npmax (le_transform (le_fit y) y) :=
      le_npmax (List.mem_map.mpr ⟨_, hmem, rfl⟩)
    omega
  rw [argmax_onehot _ _ hcode_lt]
  unfold inverse_transform
  exact le_code_getD sDefault (mem_le_fit.mpr hmem)

/-- Witness for C5 at a concrete input: the training column
`[labelB, labelA, labelB]` and its row 2. -/
theorem oneHot_roundtrip_witness :
    2 < [labelB, labelA, labelB].length ∧
    inverse_transform (convert_y_to_oneHot [labelB, labelA, labelB]).2
      (argmax ((convert_y_to_oneHot [labelB, labelA, labelB]).1.getD 2 [])) =
      [labelB, labelA, labelB].getD 2 sDefault :=
  ⟨by decide, oneHot_roundtrip [labelB, labelA, labelB] 2 (by decide)⟩

/-- C7: on a non-empty training column with `C` distinct labels the encoder
assigns codes bijectively onto `0..C-1` (the code map on training labels is
bounded by `C`, injective, and attains every value below `C`) and every
one-hot vector produced has width exactly `C`. -/
theorem convert_y_to_oneHot_bijection (y : List String) (hy : y ≠ []) :
    ((convert_y_to_oneHot y).2).length = y.dedup.length ∧
    (∀ l ∈ y, le_code (convert_y_to_oneHot y).2 l < y.dedup.length) ∧
    (∀ l1 ∈ y, ∀ l2 ∈ y,
      le_code (convert_y_to_oneHot y).2 l1 = le_code (convert_y_to_oneHot y).2 l2 →
      l1 = l2) ∧
    (∀ c, c < y.dedup.length → ∃ l ∈ y, le_code (convert_y_to_oneHot y).2 l = c) ∧
    (∀ v ∈ (convert_y_to_oneHot y).1, v.length = y.dedup.length) := by
  simp only [convert_y_to_oneHot]
  have hL : (le_fit y).length = y.dedup.length := le_fit_length y
  refine ⟨hL, ?_, ?_, ?_, ?_⟩
  · intro l hl
    have := le_code_lt (mem_le_fit.mpr hl)
    omega
  · intro l1 h1 l2 h2 heq
    have e1 : (le_fit y).getD (le_code (le_fit y) l1) sDefault = l1 :=
      le_code_getD sDefault (mem_le_fit.mpr h1)
    have e2 : (le_fit y).getD (le_code (le_fit y) l2) sDefault = l2 :=
      le_code_getD sDefault (mem_le_fit.mpr h2)
    rw [heq] at e1
    exact e1.symm.trans e2
  · intro c hc
    have hcl : c < (le_fit y).length := by omega
    refine ⟨(le_fit y).getD c sDefault, mem_le_fit.mp (getD_mem sDefault hcl), ?_⟩
    exact le_code_of_getD sDefault (le_fit_nodup y) c hcl
  · intro v hv
    unfold to_categorical at hv
    rcases List.mem_map.mp hv with ⟨cd, _, rfl⟩
    rw [List.length_map, List.length_range]
    rw [num_classes_eq y hy, hL]

/-- Witness for C7 at a concrete input: the training column
`[labelB, labelA, labelB]`, which has two distinct labels. -/
theorem convert_y_to_oneHot_bijection_witness :
    [labelB, labelA, labelB] ≠ ([] : List String) ∧
    (((convert_y_to_oneHot [labelB, labelA, labelB]).2).length =
      [labelB, labelA, labelB].dedup.length ∧
    (∀ l ∈ [labelB, labelA, labelB],
      le_code (convert_y_to_oneHot [labelB, labelA, labelB]).2 l <
        [labelB, labelA, labelB].dedup.length) ∧
    (∀ l1 ∈ [labelB, labelA, labelB], ∀ l2 ∈ [labelB, labelA, labelB],
      le_code (convert_y_to_oneHot [labelB, labelA, labelB]).2 l1 =
        le_code (convert_y_to_oneHot [labelB, labelA, labelB]).2 l2 → l1 = l2) ∧
    (∀ c, c < [labelB, labelA, labelB].dedup.length →
      ∃ l ∈ [labelB, labelA, labelB],
        le_code (convert_y_to_oneHot [labelB, labelA, labelB]).2 l = c) ∧
    (∀ v ∈ (convert_y_to_oneHot [labelB, labelA, labelB]).1,
      v.length = [labelB, labelA, labelB].dedup.length)) :=
  ⟨by decide, convert_y_to_oneHot_bijection [labelB, labelA, labelB] (by decide)⟩

theorem argmaxAux_lt {α : Type} [LinearOrder α] (l : List α) :
    ∀ i bi : ℕ, ∀ bv : α, bi < i → argmaxAux l i bi bv < i + l.length := by
  induction l with
  | nil =>
      intro i bi bv h
      simpa [argmaxAux] using h
  | cons a t ih =>
      intro i bi bv h
      simp only [argmaxAux]
      split
      · have := ih (i + 1) i a (Nat.lt_succ_self i)
        simpa [Nat.add_comm, Nat.add_left_comm] using this
      · have := ih (i + 1) bi bv (Nat.lt_succ_of_lt h)
        simpa [Nat.add_comm, Nat.add_left_comm] using this

theorem argmax_lt_length {α : Type} [LinearOrder α] (l : List α) (h : l ≠ []) :
    argmax l < l.length := by
  cases l with
  | nil => exact absurd rfl h
  | cons a t =>
      simp only [argmax, List.length_cons]
      have := argmaxAux_lt t 1 0 a Nat.zero_lt_one
      omega

/-- C6 counterexample: on an empty evaluation set `test_output_csv` does not
produce a 0-row table; it fails inside `read_data`, whose loop never assigns
`srr`, so `return x, srr` raises. -/
theorem test_output_csv_empty_eval :
    test_output_csv (fun _ => []) (fun _ => ([], 0)) id (fun _ => []) [labelA] [] 1 =
      Except.error eUnboundSrr :=
  rfl

/-- C6 (amended to non-empty evaluation sets): for every evaluation set of
`N ≥ 1` input rows, and a persisted model that returns one probability row of
width `le.length` per input, the output table has exactly `N` rows, its Id
column is `0..N-1` in input row order, and every Predicted value is a label
from the persisted encoder's class list. -/
theorem test_output_csv_rows (model : List (List (List ℚ)) → List (List ℚ))
    (loader : String → List ℚ × ℕ) (trimFn : List ℚ → List ℚ)
    (mfccFn : List ℚ → List (List ℚ)) (le : List String)
    (eval_paths : List String) (max_audio_length : ℚ) (N : ℕ)
    (hN : eval_paths.length = N) (hne : eval_paths ≠ [])
    (hC : 0 < le.length)
    (hmodel_len : ∀ xs, (model xs).length = xs.length)
    (hmodel_width : ∀ xs, ∀ p ∈ model xs, p.length = le.length) :
    ∃ rows : List (ℕ × String),
      test_output_csv model loader trimFn mfccFn le eval_paths max_audio_length =
        Except.ok rows ∧
      rows.length = N ∧
      rows.map Prod.fst = List.range N ∧
      ∀ p ∈ rows, p.2 ∈ le := by
  have hr : read_data loader eval_paths =
      Except.ok (eval_paths.map (fun p => (loader p).1),
        (loader (eval_paths.getLast hne)).2) := by
    unfold read_data
    rw [List.getLast?_eq_getLast eval_paths hne]
  unfold test_output_csv
  rw [hr]
  set srr_test := (loader (eval_paths.getLast hne)).2
  set X_mfcc := convert_to_mfcc mfccFn srr_test max_audio_length
    (trim_audios trimFn (eval_paths.map (fun p => (loader p).1))) with hX
  have hXlen : X_mfcc.length = N := by
    rw [hX]
    unfold convert_to_mfcc trim_audios
    simp [hN]
  set strs := ((model X_mfcc).map argmax).map (inverse_transform le) with hs
  have hslen : strs.length = N := by
    rw [hs]
    simp [hmodel_len X_mfcc, hXlen]
  refine ⟨(List.range strs.length).zip strs, rfl, ?_, ?_, ?_⟩
  · rw [List.length_zip, List.length_range]
    omega
  · rw [hslen]
    exact List.map_fst_zip _ _ (by rw [List.length_range, hslen])
  · intro p hp
    obtain ⟨idp, sp⟩ := p
    have hsp : sp ∈ strs := (List.of_mem_zip hp).2
    rw [hs] at hsp
    rcases List.mem_map.mp hsp with ⟨code, hcode, rfl⟩
    rcases List.mem_map.mp hcode with ⟨prow, hprow, rfl⟩
    have hw : prow.length = le.length := hmodel_width X_mfcc prow hprow
    have hnz : prow ≠ [] := by
      intro hz
      rw [hz] at hw
      simp at hw
      omega
    have hlt : argmax prow < le.length := by
      have := argmax_lt_length prow hnz
      omega
    unfold inverse_transform
    exact getD_mem sDefault hlt

/-- Witness for C6 (amended) at a concrete input: one evaluation row and a
two-class encoder. -/
theorem test_output_csv_rows_witness :
    ([pathA].length = 1 ∧ [pathA] ≠ ([] : List String) ∧
      0 < [labelA, labelB].length ∧
      (∀ xs, (model2 xs).length = xs.length) ∧
      (∀ xs, ∀ p ∈ model2 xs, p.length = [labelA, labelB].length)) ∧
    ∃ rows : List (ℕ × String),
      test_output_csv model2 (fun _ => ([], 0)) id (fun _ => []) [labelA, labelB]
          [pathA] 1 =
        Except.ok rows ∧
      rows.length = 1 ∧
      rows.map Prod.fst = List.range 1 ∧
      ∀ p ∈ rows, p.2 ∈ [labelA, labelB] :=
  ⟨⟨rfl, by decide, by decide,
    fun xs => by simp [model2],
    fun xs p hp => by
      rcases List.mem_map.mp hp with ⟨a, _, rfl⟩
      decide⟩,
   test_output_csv_rows model2 (fun _ => ([], 0)) id (fun _ => []) [labelA, labelB]
     [pathA] 1 1 rfl (by decide) (by decide)
     (fun xs => by simp [model2])
     (fun xs p hp => by
       rcases List.mem_map.mp hp with ⟨a, _, rfl⟩
       decide)⟩

end AudioIntent
